import Mathlib

/-!
Verification model of the workflow-tools repository (Python).

The core subsystems modelled here, following the source files:
  - src/workflow_tools/common/git.py        (run_git)
  - src/workflow_tools/common/shell.py      (output_cd)
  - src/workflow_tools/common/cache.py      (JSONCache)
  - src/workflow_tools/rp/discovery.py      (categorize_remote, extract_repo_info,
                                             discover_repos, RepoCache)

Python strings are modelled by Lean String, with the string operations the
source uses (str.lower, str.strip, str.startswith, substring containment,
lexicographic comparison) re-implemented structurally over the character
list so that they evaluate inside the kernel.  Filesystem paths are
modelled as their list of path segments (Path objects), converted to a
string (str(path)) by joining with a slash.  External effects (the
subprocess outcomes, the filesystem, the clock, the environment) are
explicit parameters or state.
-/

/-- Lowercase a single character, as Python str.lower does on ASCII
(characters outside the ASCII uppercase range are kept). -/
def lowChar (c : Char) : Char :=
  if 'A' ≤ c ∧ c ≤ 'Z' then Char.ofNat (c.toNat + 32) else c

/-- Model of Python str.lower on the character list. -/
def lowerStr (s : String) : String := ⟨s.data.map lowChar⟩

/-- Whether one character list starts with another (structural). -/
def headMatches : List Char → List Char → Bool
  | [], _ => true
  | _ :: _, [] => false
  | a :: as, b :: bs => a = b && headMatches as bs

/-- Model of the Python substring test (pat in s) on character lists. -/
def containsSeg (pat : List Char) : List Char → Bool
  | [] => pat.isEmpty
  | c :: t => headMatches pat (c :: t) || containsSeg pat t

/-- Model of the Python substring test (pat in s) on strings. -/
def strContains (s pat : String) : Bool := containsSeg pat.data s.data

/-- Model of Python str.strip on character lists: drop whitespace at
both ends. -/
def stripL (l : List Char) : List Char :=
  ((l.dropWhile Char.isWhitespace).reverse.dropWhile Char.isWhitespace).reverse

/-- Model of Python str.strip on strings. -/
def stripStr (s : String) : String := ⟨stripL s.data⟩

/-- Lexicographic comparison of character lists by code point, the
ordering Python uses to compare strings. -/
def charListLe : List Char → List Char → Bool
  | [], _ => true
  | _ :: _, [] => false
  | a :: as, b :: bs =>
    if a < b then true
    else if b < a then false
    else charListLe as bs

/-- Model of Python str.startswith(".") : the first character is a dot. -/
def startsWithDot (s : String) : Bool :=
  match s.data with
  | [] => false
  | c :: _ => c = '.'

/-- Whether one segment list is a leading run of another; models
Path.relative_to succeeding for resolved absolute paths. -/
def segPre : List String → List String → Bool
  | [], _ => true
  | _ :: _, [] => false
  | a :: as, b :: bs => a = b && segPre as bs

/-- Render a path given by its segments as the absolute path string
str(path) produces. -/
def pathStr (segs : List String) : String :=
  ⟨'/' :: (String.intercalate "/" segs).data⟩

/-! ## Process executor: run_git (src/workflow_tools/common/git.py)

subprocess.run with check=True raises CalledProcessError exactly when the
exit code is nonzero, and raises FileNotFoundError when the executable is
missing.  run_git catches only CalledProcessError. -/

/-- Outcome of launching the external git process: either it completed
with an exit code and captured stdout, or spawning failed (git not on
PATH, raising FileNotFoundError). -/
inductive ProcResult where
  | completed (returncode : Nat) (stdout : String)
  | spawnErr
deriving DecidableEq

/-- Model of run_git: ok (some s) is a returned string, ok none is the
None return after a caught CalledProcessError (or capture=False), and
error () is an uncaught exception escaping run_git. -/
def run_git (capture : Bool) (res : ProcResult) : Except Unit (Option String) :=
  match res with
  | .completed 0 out => .ok (if capture then some (stripStr out) else none)
  | .completed (_ + 1) _ => .ok none
  | .spawnErr => .error ()

/-! ## Remote classification (src/workflow_tools/rp/discovery.py) -/

/-- Model of categorize_remote: Python falsiness of the remote covers
None and the empty string; the three substring tests run on the
lowercased full URL. -/
def categorize_remote (remote : Option String) : String :=
  match remote with
  | none => "local"
  | some r =>
    if r = "" then "local"
    else
      let rl := lowerStr r
      if strContains rl "github.com" then "github"
      else if strContains rl "gitlab" then "gitlab"
      else if strContains rl "bitbucket" then "bitbucket"
      else "other"

/-- Modelled from the spec: the host-name part of a git remote URL, the
text between the scheme separator and the next slash when a scheme is
present, otherwise the text before the first colon with any user part
dropped (scp-like syntax). -/
def url_host (u : String) : String :=
  match dropThroughSeq "://".data u.data with
  | some rest => ⟨rest.takeWhile (fun c => c ≠ '/')⟩
  | none =>
    let beforeColon := u.data.takeWhile (fun c => c ≠ ':')
    match dropThroughSeq "@".data beforeColon with
    | some afterAt => ⟨afterAt⟩
    | none => ⟨beforeColon⟩
where
  /-- Drop characters up to and including the first occurrence of pat;
  none when pat does not occur. -/
  dropThroughSeq (pat : List Char) : List Char → Option (List Char)
    | [] => if pat.isEmpty then some [] else none
    | c :: t =>
      if headMatches pat (c :: t) then some ((c :: t).drop pat.length)
      else dropThroughSeq pat t

/-- Modelled from the spec: classification by case-insensitive substring
match on the host name of the URL, in the spec's stated priority; absent
or empty remote is local. -/
def categorize_remote_hostSpec (remote : Option String) : String :=
  match remote with
  | none => "local"
  | some r =>
    if r = "" then "local"
    else
      let h := lowerStr (url_host r)
      if strContains h "github.com" then "github"
      else if strContains h "gitlab" then "gitlab"
      else if strContains h "bitbucket" then "bitbucket"
      else "other"

/-! ## Repository records and discovery (src/workflow_tools/rp/discovery.py) -/

/-- Model of the RepoInfo NamedTuple, with the field types its
annotations declare. -/
structure RepoInfo where
  name : String
  path : String
  remote : Option String
  remote_type : String
deriving DecidableEq

/-- The external world extract_repo_info consults: the outcome of
running git remote get-url origin in a repo root.  ok r is run_git
returning r (None for a nonzero exit); error () is any exception raised
during extraction, which the discovery loop catches and skips. -/
structure GitEnv where
  remote : List String → Except Unit (Option String)

/-- Model of extract_repo_info on a repo path given by its segments:
name is the final path segment, path is str(repo_path). -/
def extract_repo_info (env : GitEnv) (rp : List String) : Except Unit RepoInfo :=
  (env.remote rp).map fun rem =>
    { name := (rp.getLast?).getD ""
      path := pathStr rp
      remote := rem
      remote_type := categorize_remote rem }

/-- One scan root: whether base.exists(), and the .git directories the
external find process printed (none models a timeout or a missing find
binary, which skips the root). -/
structure ScanRoot where
  base : List String
  present : Bool
  found : Option (List (List String))

/-- Key on which discovery sorts: the lowercased name (r.name.lower()). -/
def nameKey (r : RepoInfo) : List Char := r.name.data.map lowChar

/-- Comparison used by the Python sort key=lambda r: r.name.lower(). -/
def repoLe (a b : RepoInfo) : Bool := charListLe (nameKey a) (nameKey b)

/-- Stable insertion into a sorted list: the new element is placed
before the first existing element it compares le to, hence after every
earlier element of equal key. -/
def sinsert (le : RepoInfo → RepoInfo → Bool) (a : RepoInfo) :
    List RepoInfo → List RepoInfo
  | [] => [a]
  | b :: bs => if le a b then a :: b :: bs else b :: sinsert le a bs

/-- Stable sort, modelling Python sorted (a stable sort) applied with
the key comparison le. -/
def ssort (le : RepoInfo → RepoInfo → Bool) : List RepoInfo → List RepoInfo
  | [] => []
  | a :: l => sinsert le a (ssort le l)

/-- Body of the per-.git-directory loop of discover_repos: the state is
the accumulated repo list and the seen path strings.  The hidden-segment
test drops the leading base segments of the repo path, as
repo_path.relative_to(base) does. -/
def processGitDir (env : GitEnv) (base : List String)
    (st : List RepoInfo × List String) (g : List String) :
    List RepoInfo × List String :=
  let rp := g.dropLast
  let ps := pathStr rp
  if st.2.contains ps then st
  else
    let seen := ps :: st.2
    if (rp.drop base.length).any startsWithDot then (st.1, seen)
    else
      match extract_repo_info env rp with
      | .error _ => (st.1, seen)
      | .ok info => (st.1 ++ [info], seen)

/-- Body of the per-root loop of discover_repos: a missing root, a find
timeout, or a missing find binary contribute nothing. -/
def processRoot (env : GitEnv) (st : List RepoInfo × List String)
    (root : ScanRoot) : List RepoInfo × List String :=
  if root.present then
    match root.found with
    | none => st
    | some gs => gs.foldl (processGitDir env root.base) st
  else st

/-- The repo list discover_repos accumulates before its final sort. -/
def discover_raw (env : GitEnv) (roots : List ScanRoot) : List RepoInfo :=
  (roots.foldl (processRoot env) ([], [])).1

/-- Model of discover_repos: accumulate across roots, then return the
list stably sorted by lowercased name. -/
def discover_repos (env : GitEnv) (roots : List ScanRoot) : List RepoInfo :=
  ssort repoLe (discover_raw env roots)

/-! ## JSON layer of the persisted cache

Cache entries are JSON objects whose values, in the shape this program
writes, are strings or null; an object is modelled as an association
list of field name to optional string. -/

/-- A persisted JSON object: field names with string-or-null values. -/
abbrev JObj : Type := List (String × Option String)

/-- The field names of the RepoInfo NamedTuple, in declaration order. -/
def repoFields : List String := ["name", "path", "remote", "remote_type"]

/-- Model of RepoInfo(**r): keyword construction of a NamedTuple with
no default values raises TypeError when a key is not a field name or
when a field is missing; there is no runtime check of value types, and
the values this cache file ever holds are strings (null for remote). -/
def repoInfoOfJson (o : JObj) : Except Unit RepoInfo :=
  if (o.map Prod.fst).all (fun k => repoFields.contains k) then
    match o.lookup "name", o.lookup "path",
        o.lookup "remote", o.lookup "remote_type" with
    | some n, some p, some rem, some t =>
      .ok { name := n.getD "", path := p.getD "", remote := rem,
            remote_type := t.getD "" }
    | _, _, _, _ => .error ()
  else .error ()

/-- Model of r._asdict() followed by JSON serialization: the four fields
in declaration order. -/
def jsonOfRepoInfo (r : RepoInfo) : JObj :=
  [("name", some r.name), ("path", some r.path),
   ("remote", r.remote), ("remote_type", some r.remote_type)]

/-! ## JSONCache (src/workflow_tools/common/cache.py) and RepoCache

Clock readings are modelled in a fixed subsecond unit (milliseconds), so
the TTL of 1 second of the boundary scenario is 1000 and the fractional
ages 0.5s and 1.1s are 500 and 1100. -/

/-- What reading the persisted cache file can encounter, after the file
exists and its stat succeeded: an OSError on read, a JSONDecodeError, a
parse producing null (which get returns as None), or a parsed array of
objects. -/
inductive CacheContent where
  | unreadable
  | badJson
  | jsonNull
  | entries (es : List JObj)

/-- The persisted cache file: absent, present but with stat raising
OSError, or present with a modification time and contents. -/
inductive CacheFile where
  | absent
  | statErr
  | file (mtime : Int) (content : CacheContent)

/-- State a RepoCache call runs in: the cache file and the clock. -/
structure CState where
  fileSt : CacheFile
  now : Int

/-- Model of JSONCache.is_valid: the file exists, stat succeeds, and the
age is strictly below the TTL. -/
def is_valid (ttl : Int) (st : CState) : Bool :=
  match st.fileSt with
  | .absent => false
  | .statErr => false
  | .file mtime _ => st.now - mtime < ttl

/-- Model of JSONCache.get: None unless is_valid, then the parsed JSON
with OSError and JSONDecodeError both collapsed to None (a file holding
the JSON literal null also returns None to the caller). -/
def jcache_get (ttl : Int) (st : CState) : Option (List JObj) :=
  if is_valid ttl st then
    match st.fileSt with
    | .file _ (.entries es) => some es
    | _ => none
  else none

/-- Model of JSONCache.set: write the serialized data now, so the file
mtime becomes the current clock reading. -/
def jcache_set (st : CState) (rs : List RepoInfo) : CState :=
  { st with fileSt := .file st.now (.entries (rs.map jsonOfRepoInfo)) }

/-- Model of RepoCache.get_repos.  The scan parameter is the repo list
discover_repos would produce now (the _refresh result, which is also
persisted).  error () is an uncaught exception from RepoInfo(**r). -/
def get_repos (ttl : Int) (scan : List RepoInfo) (st : CState)
    (force : Bool) : Except Unit ((List RepoInfo × Bool) × CState) :=
  if force then .ok ((scan, false), jcache_set st scan)
  else
    match jcache_get ttl st with
    | some es => (es.mapM repoInfoOfJson).map fun rs => ((rs, true), st)
    | none => .ok ((scan, false), jcache_set st scan)

/-- Model of RepoCache.add_repo: get the repos, extract info for the new
path, return early when the exact path string is already present, else
append, stably re-sort, persist.  The extracted record is a parameter
because extraction consults the filesystem and git. -/
def add_repo (ttl : Int) (scan : List RepoInfo) (st : CState)
    (info : RepoInfo) : Except Unit CState :=
  match get_repos ttl scan st false with
  | .error e => .error e
  | .ok ((repos, _), st1) =>
    if repos.any (fun r => r.path = info.path) then .ok st1
    else .ok (jcache_set st1 (ssort repoLe (repos ++ [info])))

/-- Model of RepoCache.remove_repo: get the repos, filter out the path,
persist the remainder unconditionally. -/
def remove_repo (ttl : Int) (scan : List RepoInfo) (st : CState)
    (p : String) : Except Unit CState :=
  match get_repos ttl scan st false with
  | .error e => .error e
  | .ok ((repos, _), st1) =>
    .ok (jcache_set st1 (repos.filter (fun r => r.path ≠ p)))

/-- The three matching loops of RepoCache.find_repo, over the repo list
its get_repos call returned: exact path, exact name, lowercased name. -/
def find_repo (repos : List RepoInfo) (q : String) : Option RepoInfo :=
  match repos.find? (fun r => r.path = q) with
  | some r => some r
  | none =>
    match repos.find? (fun r => r.name = q) with
    | some r => some r
    | none => repos.find? (fun r => lowerStr r.name = lowerStr q)

/-! ## Shell handoff (src/workflow_tools/common/shell.py) -/

/-- The world output_cd consults: the value of the handoff environment
variable, OS path resolution (Path(s).resolve(), as resolved segments),
the resolved temp directory, and whether writing the handoff file would
succeed (write_text raising OSError otherwise). -/
structure ShellEnv where
  cdFileVar : Option String
  resolve : String → List String
  tempDir : List String
  writeOk : Bool

/-- What output_cd did: the handoff file written (resolved path and full
contents), if any, and the line echoed to stdout. -/
structure CdEffect where
  written : Option (List String × String)
  echoed : String
deriving DecidableEq

/-- Model of output_cd: an unset or empty (falsy) variable skips the
write; a resolved target outside the temp directory raises ValueError in
relative_to, caught and skipped; a failing write raises OSError, caught
and skipped; the human-readable line is echoed in every case. -/
def output_cd (env : ShellEnv) (path : String) : CdEffect :=
  let written :=
    match env.cdFileVar with
    | none => none
    | some s =>
      if s = "" then none
      else
        let cdPath := env.resolve s
        if segPre env.tempDir cdPath ∧ env.writeOk then some (cdPath, path)
        else none
  { written := written, echoed := "Switching to " ++ path }

/-! ## Concrete fixtures and derived predicates -/

/-- A record r was contributed by this scan root: the root existed, its
find run produced output, and some printed .git directory yields r with
no hidden segment in the repo path relative to the root. -/
def keptFromRoot (env : GitEnv) (root : ScanRoot) (r : RepoInfo) : Prop :=
  root.present = true ∧ ∃ gs, root.found = some gs ∧ ∃ g ∈ gs,
    (g.dropLast.drop root.base.length).any startsWithDot = false ∧
    extract_repo_info env g.dropLast = Except.ok r

/-- Fixture: the repo at /a/foo of the lookup scenario. -/
def fooA : RepoInfo :=
  { name := "foo", path := "/a/foo", remote := none, remote_type := "local" }

/-- Fixture: the repo at /b/foo of the lookup scenario. -/
def fooB : RepoInfo :=
  { name := "foo", path := "/b/foo", remote := none, remote_type := "local" }

/-- Fixture: a stored cache list holding two repos that share a name. -/
def demoRepos : List RepoInfo := [fooA, fooB]

/-- Fixture: a record whose path is used in the add/remove scenarios. -/
def pRec : RepoInfo :=
  { name := "p", path := "/h/p", remote := none, remote_type := "local" }

/-! ## Helper lemmas: the lexicographic comparison -/

theorem charListLe_refl (l : List Char) : charListLe l l = true := by
  induction l with
  | nil => rfl
  | cons a t ih => simp [charListLe, lt_irrefl, ih]

theorem charListLe_total (a b : List Char) :
    charListLe a b = true ∨ charListLe b a = true := by
  induction a generalizing b with
  | nil => exact Or.inl rfl
  | cons x xs ih =>
    cases b with
    | nil => exact Or.inr rfl
    | cons y ys =>
      rcases lt_trichotomy x y with h | h | h
      · left; simp [charListLe, h]
      · subst h
        rcases ih ys with h2 | h2
        · left; simp [charListLe, lt_irrefl, h2]
        · right; simp [charListLe, lt_irrefl, h2]
      · right; simp [charListLe, h]

theorem charListLe_trans : ∀ (a b c : List Char),
    charListLe a b = true → charListLe b c = true → charListLe a c = true := by
  intro a
  induction a with
  | nil => intro b c _ _; rfl
  | cons x xs ih =>
    intro b c h1 h2
    cases b with
    | nil => simp [charListLe] at h1
    | cons y ys =>
      cases c with
      | nil => simp [charListLe] at h2
      | cons z zs =>
        rcases lt_trichotomy x y with hxy | hxy | hxy
        · rcases lt_trichotomy y z with hyz | hyz | hyz
          · simp [charListLe, lt_trans hxy hyz]
          · subst hyz; simp [charListLe, hxy]
          · simp [charListLe, lt_asymm hyz, hyz] at h2
        · subst hxy
          rcases lt_trichotomy x z with hyz | hyz | hyz
          · simp [charListLe, hyz]
          · subst hyz
            simp only [charListLe, lt_irrefl, if_false] at h1 h2 ⊢
            exact ih ys zs h1 h2
          · simp [charListLe, lt_asymm hyz, hyz] at h2
        · simp [charListLe, lt_asymm hxy, hxy] at h1

theorem repoLe_total (a b : RepoInfo) : repoLe a b = true ∨ repoLe b a = true :=
  charListLe_total (nameKey a) (nameKey b)

theorem repoLe_trans {a b c : RepoInfo} (h1 : repoLe a b = true)
    (h2 : repoLe b c = true) : repoLe a c = true :=
  charListLe_trans (nameKey a) (nameKey b) (nameKey c) h1 h2

theorem repoLe_of_key_eq {a b : RepoInfo} (h : nameKey a = nameKey b) :
    repoLe a b = true := by
  unfold repoLe; rw [h]; exact charListLe_refl _

/-! ## Helper lemmas: the stable sort -/

theorem sinsert_perm (le : RepoInfo → RepoInfo → Bool) (a : RepoInfo) :
    ∀ l, (sinsert le a l).Perm (a :: l) := by
  intro l
  induction l with
  | nil => exact List.Perm.refl _
  | cons b bs ih =>
    unfold sinsert
    split
    · exact List.Perm.refl _
    · exact (ih.cons b).trans (List.Perm.swap a b bs)

theorem ssort_perm (le : RepoInfo → RepoInfo → Bool) :
    ∀ l, (ssort le l).Perm l := by
  intro l
  induction l with
  | nil => exact List.Perm.refl _
  | cons a t ih => exact (sinsert_perm le a (ssort le t)).trans (ih.cons a)

theorem sorted_sinsert (a : RepoInfo) (l : List RepoInfo)
    (h : List.Pairwise (fun x y => repoLe x y = true) l) :
    List.Pairwise (fun x y => repoLe x y = true) (sinsert repoLe a l) := by
  induction l with
  | nil => simp [sinsert]
  | cons b bs ih =>
    rw [List.pairwise_cons] at h
    simp only [sinsert]
    by_cases hle : repoLe a b = true
    case pos =>
      rw [if_pos hle]
      rw [List.pairwise_cons]
      refine ⟨?_, List.pairwise_cons.2 h⟩
      intro x hx
      rcases List.mem_cons.1 hx with hx | hx
      · subst hx; exact hle
      · exact repoLe_trans hle (h.1 x hx)
    case neg =>
      rw [if_neg hle]
      rw [List.pairwise_cons]
      refine ⟨?_, ih h.2⟩
      intro x hx
      rcases List.mem_cons.1 (((sinsert_perm repoLe a bs).mem_iff).1 hx)
          with hx' | hx'
      · rw [hx']
        rcases repoLe_total a b with ht | ht
        · exact absurd ht hle
        · exact ht
      · exact h.1 x hx'

theorem sorted_ssort (l : List RepoInfo) :
    List.Pairwise (fun x y => repoLe x y = true) (ssort repoLe l) := by
  induction l with
  | nil => exact List.Pairwise.nil
  | cons a t ih => exact sorted_sinsert a (ssort repoLe t) ih

theorem filter_sinsert_eqKey (k : List Char) (a : RepoInfo)
    (l : List RepoInfo) (ha : nameKey a = k) :
    (sinsert repoLe a l).filter (fun r => decide (nameKey r = k)) =
      a :: l.filter (fun r => decide (nameKey r = k)) := by
  induction l with
  | nil => simp [sinsert, ha]
  | cons b bs ih =>
    simp only [sinsert]
    by_cases hle : repoLe a b = true
    case pos => rw [if_pos hle]; simp [List.filter_cons, ha]
    case neg =>
      rw [if_neg hle]
      have hbk : ¬ nameKey b = k := by
        intro hbk
        exact hle (repoLe_of_key_eq (by rw [ha, hbk]))
      simp only [List.filter_cons, decide_eq_true_eq]
      rw [if_neg hbk, if_neg hbk, ih]

theorem filter_sinsert_neKey (k : List Char) (a : RepoInfo)
    (l : List RepoInfo) (ha : ¬ nameKey a = k) :
    (sinsert repoLe a l).filter (fun r => decide (nameKey r = k)) =
      l.filter (fun r => decide (nameKey r = k)) := by
  induction l with
  | nil => simp [sinsert, ha]
  | cons b bs ih =>
    simp only [sinsert]
    by_cases hle : repoLe a b = true
    case pos => rw [if_pos hle]; simp [List.filter_cons, ha]
    case neg =>
      rw [if_neg hle]
      simp only [List.filter_cons]
      rw [ih]

theorem filter_ssort (k : List Char) (l : List RepoInfo) :
    (ssort repoLe l).filter (fun r => decide (nameKey r = k)) =
      l.filter (fun r => decide (nameKey r = k)) := by
  induction l with
  | nil => rfl
  | cons a t ih =>
    by_cases ha : nameKey a = k
    · rw [show ssort repoLe (a :: t) = sinsert repoLe a (ssort repoLe t) from rfl,
        filter_sinsert_eqKey k a _ ha, ih, List.filter_cons, if_pos (by simpa using ha)]
    · rw [show ssort repoLe (a :: t) = sinsert repoLe a (ssort repoLe t) from rfl,
        filter_sinsert_neKey k a _ ha, ih, List.filter_cons, if_neg (by simpa using ha)]

/-! ## Helper lemmas: JSON round trip and get_repos -/

theorem repoInfoOfJson_jsonOfRepoInfo (r : RepoInfo) :
    repoInfoOfJson (jsonOfRepoInfo r) = .ok r := rfl

theorem mapM_repoInfo_roundtrip (rs : List RepoInfo) :
    (rs.map jsonOfRepoInfo).mapM repoInfoOfJson = Except.ok rs := by
  induction rs with
  | nil => rfl
  | cons r t ih =>
    simp only [List.map_cons, List.mapM_cons, repoInfoOfJson_jsonOfRepoInfo, ih]
    rfl

theorem jcache_get_none_of_invalid (ttl : Int) (st : CState)
    (h : is_valid ttl st = false) : jcache_get ttl st = none := by
  unfold jcache_get
  rw [h]
  rfl

theorem get_repos_miss (ttl : Int) (scan : List RepoInfo) (st : CState)
    (h : jcache_get ttl st = none) :
    get_repos ttl scan st false = .ok ((scan, false), jcache_set st scan) := by
  unfold get_repos
  rw [h]
  rfl

theorem get_repos_hit (ttl : Int) (scan : List RepoInfo) (st : CState)
    (es : List JObj) (rs : List RepoInfo) (h : jcache_get ttl st = some es)
    (h2 : es.mapM repoInfoOfJson = .ok rs) :
    get_repos ttl scan st false = .ok ((rs, true), st) := by
  unfold get_repos
  rw [h]
  show Except.map (fun rs => ((rs, true), st)) (es.mapM repoInfoOfJson) =
    Except.ok ((rs, true), st)
  rw [h2]
  rfl

theorem get_repos_fresh (ttl : Int) (scan rs : List RepoInfo) (st : CState)
    (h : 0 < ttl) :
    get_repos ttl scan (jcache_set st rs) false =
      .ok ((rs, true), jcache_set st rs) := by
  apply get_repos_hit ttl scan (jcache_set st rs) (rs.map jsonOfRepoInfo) rs
  · unfold jcache_get is_valid jcache_set
    simp [h]
  · exact mapM_repoInfo_roundtrip rs

/-! ## Helper lemmas: discovery membership -/

theorem mem_processGitDir (env : GitEnv) (base : List String)
    (st : List RepoInfo × List String) (g : List String) (r : RepoInfo)
    (h : r ∈ (processGitDir env base st g).1) :
    r ∈ st.1 ∨
      ((g.dropLast.drop base.length).any startsWithDot = false ∧
        extract_repo_info env g.dropLast = Except.ok r) := by
  unfold processGitDir at h
  by_cases hseen : st.2.contains (pathStr g.dropLast) = true
  · rw [if_pos hseen] at h
    exact Or.inl h
  · rw [if_neg hseen] at h
    by_cases hhid : (g.dropLast.drop base.length).any startsWithDot = true
    · rw [if_pos hhid] at h
      exact Or.inl h
    · rw [if_neg hhid] at h
      rcases hx : extract_repo_info env g.dropLast with e | info
      · rw [hx] at h
        exact Or.inl h
      · rw [hx] at h
        rcases List.mem_append.1 h with h' | h'
        · exact Or.inl h'
        · have hr : r = info := List.mem_singleton.1 h'
          subst hr
          have hhid' :
              (g.dropLast.drop base.length).any startsWithDot = false := by
            simpa using hhid
          exact Or.inr ⟨hhid', rfl⟩

theorem mem_foldl_gitDirs (env : GitEnv) (base : List String)
    (gs : List (List String)) :
    ∀ (st : List RepoInfo × List String) (r : RepoInfo),
      r ∈ (gs.foldl (processGitDir env base) st).1 →
      r ∈ st.1 ∨ ∃ g ∈ gs,
        (g.dropLast.drop base.length).any startsWithDot = false ∧
        extract_repo_info env g.dropLast = Except.ok r := by
  induction gs with
  | nil => intro st r h; exact Or.inl h
  | cons g gt ih =>
    intro st r h
    rw [List.foldl_cons] at h
    rcases ih (processGitDir env base st g) r h with h' | ⟨g', hg', hp⟩
    · rcases mem_processGitDir env base st g r h' with h'' | hp
      · exact Or.inl h''
      · exact Or.inr ⟨g, List.mem_cons_self g gt, hp⟩
    · exact Or.inr ⟨g', List.mem_cons_of_mem g hg', hp⟩

theorem mem_processRoot (env : GitEnv) (st : List RepoInfo × List String)
    (root : ScanRoot) (r : RepoInfo)
    (h : r ∈ (processRoot env st root).1) :
    r ∈ st.1 ∨ keptFromRoot env root r := by
  unfold processRoot at h
  by_cases hp : root.present = true
  · rw [if_pos hp] at h
    rcases hf : root.found with _ | gs
    · rw [hf] at h
      exact Or.inl h
    · rw [hf] at h
      rcases mem_foldl_gitDirs env root.base gs st r h with h' | ⟨g, hg, hprop⟩
      · exact Or.inl h'
      · exact Or.inr ⟨hp, gs, hf, g, hg, hprop⟩
  · rw [if_neg hp] at h
    exact Or.inl h

theorem mem_foldl_roots (env : GitEnv) (roots : List ScanRoot) :
    ∀ (st : List RepoInfo × List String) (r : RepoInfo),
      r ∈ (roots.foldl (processRoot env) st).1 →
      r ∈ st.1 ∨ ∃ root ∈ roots, keptFromRoot env root r := by
  induction roots with
  | nil => intro st r h; exact Or.inl h
  | cons root rt ih =>
    intro st r h
    rw [List.foldl_cons] at h
    rcases ih (processRoot env st root) r h with h' | ⟨root', hr', hp⟩
    · rcases mem_processRoot env st root r h' with h'' | hp
      · exact Or.inl h''
      · exact Or.inr ⟨root, List.mem_cons_self root rt, hp⟩
    · exact Or.inr ⟨root', List.mem_cons_of_mem root hr', hp⟩

theorem mem_discover_repos (env : GitEnv) (roots : List ScanRoot)
    (r : RepoInfo) (h : r ∈ discover_repos env roots) :
    ∃ root ∈ roots, keptFromRoot env root r := by
  unfold discover_repos at h
  have h' : r ∈ discover_raw env roots :=
    (ssort_perm repoLe (discover_raw env roots)).mem_iff.1 h
  unfold discover_raw at h'
  rcases mem_foldl_roots env roots ([], []) r h' with h'' | hp
  · simp at h''
  · exact hp

/-! ## Helper lemmas: lookup and first match -/

theorem lookup_isSome_iff (a : String) (o : JObj) :
    (o.lookup a).isSome = true ↔ a ∈ o.map Prod.fst := by
  induction o with
  | nil => simp [List.lookup]
  | cons e t ih =>
    rcases e with ⟨k, v⟩
    by_cases hk : a = k
    · subst hk
      simp [List.lookup]
    · simp only [List.lookup]
      have hb : (a == k) = false := by simp [hk]
      rw [hb]
      simp [ih, hk]

theorem find?_first {α : Type} (p : α → Bool) (l : List α)
    (h : ∃ x ∈ l, p x = true) :
    ∃ l₁ r l₂, l = l₁ ++ r :: l₂ ∧ p r = true ∧ (∀ x ∈ l₁, p x = false) ∧
      l.find? p = some r := by
  rcases h with ⟨x, hx, hp⟩
  have hs : (l.find? p).isSome = true := List.find?_isSome.2 ⟨x, hx, hp⟩
  rcases Option.isSome_iff_exists.1 hs with ⟨r, hr⟩
  rcases List.find?_eq_some.1 hr with ⟨hpr, as, bs, heq, hall⟩
  refine ⟨as, r, bs, heq, hpr, ?_, hr⟩
  intro y hy
  simpa using hall y hy

/-! ## C5: run_git -/

/-- C5 counterexample: run_git does not collapse a spawn error into the
None failure signal (the FileNotFoundError escapes), and a successful
run has leading whitespace removed as well, not only trailing. -/
theorem run_git_C5_counterexample :
    run_git true .spawnErr = .error () ∧
    run_git true .spawnErr ≠ .ok none ∧
    run_git true (.completed 0 " hi") = .ok (some "hi") ∧
    run_git true (.completed 0 " hi") ≠ .ok (some " hi") := by
  refine ⟨rfl, ?_, rfl, ?_⟩
  · intro hcon
    exact Except.noConfusion hcon
  · intro hcon
    injection hcon with h1
    injection h1 with h2
    exact absurd h2 (by decide)

/-- C5 (amended): a successful run returns stdout with whitespace
stripped at both ends, a nonzero exit is collapsed to the None failure
signal, and a spawn error propagates as an uncaught exception. -/
theorem run_git_spec (out : String) (n : Nat) :
    run_git true (.completed 0 out) = .ok (some (stripStr out)) ∧
    run_git true (.completed (n + 1) out) = .ok none ∧
    run_git true .spawnErr = .error () :=
  ⟨rfl, rfl, rfl⟩

/-! ## C6: categorize_remote -/

/-- C6 counterexample: a URL whose host contains none of the three
markers is still classified github when the marker occurs elsewhere in
the URL, because the substring match runs on the whole URL, not on the
host name. -/
theorem categorize_remote_C6_counterexample :
    categorize_remote (some "https://example.com/github.com/repo") =
      "github" ∧
    url_host "https://example.com/github.com/repo" = "example.com" ∧
    categorize_remote_hostSpec (some "https://example.com/github.com/repo") =
      "other" := by
  refine ⟨by decide, by decide, by decide⟩

/-- C6 (amended): absent or empty remote is local; otherwise the
classification is by case-insensitive substring match on the entire URL
string, in the priority github.com, gitlab, bitbucket, other. -/
theorem categorize_remote_spec (r : String) (h : r ≠ "") :
    categorize_remote none = "local" ∧
    categorize_remote (some "") = "local" ∧
    (strContains (lowerStr r) "github.com" = true →
      categorize_remote (some r) = "github") ∧
    (strContains (lowerStr r) "github.com" = false →
      strContains (lowerStr r) "gitlab" = true →
      categorize_remote (some r) = "gitlab") ∧
    (strContains (lowerStr r) "github.com" = false →
      strContains (lowerStr r) "gitlab" = false →
      strContains (lowerStr r) "bitbucket" = true →
      categorize_remote (some r) = "bitbucket") ∧
    (strContains (lowerStr r) "github.com" = false →
      strContains (lowerStr r) "gitlab" = false →
      strContains (lowerStr r) "bitbucket" = false →
      categorize_remote (some r) = "other") := by
  refine ⟨rfl, rfl, ?_, ?_, ?_, ?_⟩
  · intro h1
    simp [categorize_remote, h, h1]
  · intro h1 h2
    simp [categorize_remote, h, h1, h2]
  · intro h1 h2 h3
    simp [categorize_remote, h, h1, h2, h3]
  · intro h1 h2 h3
    simp [categorize_remote, h, h1, h2, h3]

/-- C6 witness: the amended classification at concrete URLs. -/
theorem categorize_remote_spec_witness :
    categorize_remote (some "https://GitHub.com/u/r.git") = "github" ∧
    categorize_remote (some "git@bitbucket.org:u/r.git") = "bitbucket" :=
  ⟨(categorize_remote_spec "https://GitHub.com/u/r.git" (by decide)).2.2.1
      (by decide),
    (categorize_remote_spec "git@bitbucket.org:u/r.git" (by decide)).2.2.2.2.1
      (by decide) (by decide) (by decide)⟩

/-! ## C4: cache entry deserialization -/

/-- C4 counterexample: the reader RepoInfo(**r) rejects an entry with an
extra unknown field, and rejects an entry with fields missing, instead
of tolerating them. -/
theorem repoInfoOfJson_C4_counterexample :
    repoInfoOfJson [("name", some "a"), ("path", some "/a"),
      ("remote", none), ("remote_type", some "local"),
      ("color", some "red")] = .error () ∧
    repoInfoOfJson [("name", some "a")] = .error () :=
  ⟨rfl, rfl⟩

/-- C4 (amended): the reader accepts a persisted entry exactly when
every key is one of the four RepoInfo field names and each of the four
field names is present; an extra unknown field or a missing field makes
RepoInfo(**r) raise TypeError instead of being tolerated. -/
theorem repoInfoOfJson_keys (o : JObj) :
    (∃ r, repoInfoOfJson o = .ok r) ↔
      ((∀ k ∈ o.map Prod.fst, k ∈ repoFields) ∧
        ∀ f ∈ repoFields, f ∈ o.map Prod.fst) := by
  constructor
  · rintro ⟨r, hr⟩
    unfold repoInfoOfJson at hr
    by_cases hall :
        (o.map Prod.fst).all (fun k => repoFields.contains k) = true
    case neg =>
      rw [if_neg hall] at hr
      exact absurd hr (by simp)
    case pos =>
      rw [if_pos hall] at hr
      constructor
      · intro k hk
        have h := List.all_eq_true.1 hall k hk
        simpa using h
      · intro f hf
        rcases hn : o.lookup "name" with _ | n
        case none => rw [hn] at hr; exact absurd hr (by simp)
        rcases hp : o.lookup "path" with _ | pv
        case none => rw [hn, hp] at hr; exact absurd hr (by simp)
        rcases hrem : o.lookup "remote" with _ | rv
        case none => rw [hn, hp, hrem] at hr; exact absurd hr (by simp)
        rcases ht : o.lookup "remote_type" with _ | tv
        case none => rw [hn, hp, hrem, ht] at hr; exact absurd hr (by simp)
        have hf' : f = "name" ∨ f = "path" ∨ f = "remote" ∨
            f = "remote_type" := by simpa [repoFields] using hf
        rcases hf' with rfl | rfl | rfl | rfl
        · exact (lookup_isSome_iff _ o).1 (by rw [hn]; rfl)
        · exact (lookup_isSome_iff _ o).1 (by rw [hp]; rfl)
        · exact (lookup_isSome_iff _ o).1 (by rw [hrem]; rfl)
        · exact (lookup_isSome_iff _ o).1 (by rw [ht]; rfl)
  · rintro ⟨h1, h2⟩
    unfold repoInfoOfJson
    rw [if_pos (List.all_eq_true.2 (fun k hk => by simpa using h1 k hk))]
    obtain ⟨n, hn⟩ := Option.isSome_iff_exists.1
      ((lookup_isSome_iff "name" o).2 (h2 _ (by simp [repoFields])))
    obtain ⟨pv, hp⟩ := Option.isSome_iff_exists.1
      ((lookup_isSome_iff "path" o).2 (h2 _ (by simp [repoFields])))
    obtain ⟨rv, hrem⟩ := Option.isSome_iff_exists.1
      ((lookup_isSome_iff "remote" o).2 (h2 _ (by simp [repoFields])))
    obtain ⟨tv, ht⟩ := Option.isSome_iff_exists.1
      ((lookup_isSome_iff "remote_type" o).2 (h2 _ (by simp [repoFields])))
    rw [hn, hp, hrem, ht]
    exact ⟨_, rfl⟩

/-- C4 witness: an entry carrying exactly the four fields is accepted. -/
theorem repoInfoOfJson_keys_witness :
    ∃ r, repoInfoOfJson [("name", some "a"), ("path", some "/a"),
      ("remote", none), ("remote_type", some "local")] = .ok r :=
  (repoInfoOfJson_keys _).2 ⟨by decide, by decide⟩

/-! ## C3: find_repo lookup tiers -/

/-- C3: find_repo tries exact path match, then exact name match, then
case-insensitive name match; within the earliest non-empty tier the
first record in stored order wins, and with no match in any tier the
result is none. -/
theorem find_repo_tiers (repos : List RepoInfo) (q : String) :
    ((∃ r ∈ repos, r.path = q) →
      ∃ l₁ r l₂, repos = l₁ ++ r :: l₂ ∧ r.path = q ∧
        (∀ x ∈ l₁, x.path ≠ q) ∧ find_repo repos q = some r) ∧
    ((∀ r ∈ repos, r.path ≠ q) → (∃ r ∈ repos, r.name = q) →
      ∃ l₁ r l₂, repos = l₁ ++ r :: l₂ ∧ r.name = q ∧
        (∀ x ∈ l₁, x.name ≠ q) ∧ find_repo repos q = some r) ∧
    ((∀ r ∈ repos, r.path ≠ q ∧ r.name ≠ q) →
      (∃ r ∈ repos, lowerStr r.name = lowerStr q) →
      ∃ l₁ r l₂, repos = l₁ ++ r :: l₂ ∧ lowerStr r.name = lowerStr q ∧
        (∀ x ∈ l₁, lowerStr x.name ≠ lowerStr q) ∧
        find_repo repos q = some r) ∧
    ((∀ r ∈ repos, r.path ≠ q ∧ r.name ≠ q ∧ lowerStr r.name ≠ lowerStr q) →
      find_repo repos q = none) := by
  refine ⟨?_, ?_, ?_, ?_⟩
  · intro hex
    obtain ⟨l₁, r, l₂, heq, hpr, hnone, hfind⟩ :=
      find?_first (fun r => r.path = q) repos
        (by rcases hex with ⟨r, hr, hp⟩; exact ⟨r, hr, by simp [hp]⟩)
    refine ⟨l₁, r, l₂, heq, by simpa using hpr, ?_, ?_⟩
    · intro x hx
      simpa using hnone x hx
    · unfold find_repo
      rw [hfind]
  · intro h1 hex
    have hn1 : repos.find? (fun r => r.path = q) = none :=
      List.find?_eq_none.2 (fun x hx => by simp [h1 x hx])
    obtain ⟨l₁, r, l₂, heq, hpr, hnone, hfind⟩ :=
      find?_first (fun r => r.name = q) repos
        (by rcases hex with ⟨r, hr, hp⟩; exact ⟨r, hr, by simp [hp]⟩)
    refine ⟨l₁, r, l₂, heq, by simpa using hpr, ?_, ?_⟩
    · intro x hx
      simpa using hnone x hx
    · unfold find_repo
      rw [hn1, hfind]
  · intro h1 hex
    have hn1 : repos.find? (fun r => r.path = q) = none :=
      List.find?_eq_none.2 (fun x hx => by simp [(h1 x hx).1])
    have hn2 : repos.find? (fun r => r.name = q) = none :=
      List.find?_eq_none.2 (fun x hx => by simp [(h1 x hx).2])
    obtain ⟨l₁, r, l₂, heq, hpr, hnone, hfind⟩ :=
      find?_first (fun r => lowerStr r.name = lowerStr q) repos
        (by rcases hex with ⟨r, hr, hp⟩; exact ⟨r, hr, by simp [hp]⟩)
    refine ⟨l₁, r, l₂, heq, by simpa using hpr, ?_, ?_⟩
    · intro x hx
      simpa using hnone x hx
    · unfold find_repo
      rw [hn1, hn2, hfind]
  · intro h1
    have hn1 : repos.find? (fun r => r.path = q) = none :=
      List.find?_eq_none.2 (fun x hx => by simp [(h1 x hx).1])
    have hn2 : repos.find? (fun r => r.name = q) = none :=
      List.find?_eq_none.2 (fun x hx => by simp [(h1 x hx).2.1])
    have hn3 : repos.find? (fun r => lowerStr r.name = lowerStr q) = none :=
      List.find?_eq_none.2 (fun x hx => by simp [(h1 x hx).2.2])
    unfold find_repo
    rw [hn1, hn2, hn3]

/-- C3 witness: with records for /a/foo and /b/foo that share the name
foo, lookup by full path finds the /a/foo record (tier one), and lookup
by name deterministically finds the first record in stored order. -/
theorem find_repo_tiers_witness :
    (∃ l₁ r l₂, demoRepos = l₁ ++ r :: l₂ ∧ r.path = "/a/foo" ∧
      (∀ x ∈ l₁, x.path ≠ "/a/foo") ∧
      find_repo demoRepos "/a/foo" = some r) ∧
    (∃ l₁ r l₂, demoRepos = l₁ ++ r :: l₂ ∧ r.name = "foo" ∧
      (∀ x ∈ l₁, x.name ≠ "foo") ∧ find_repo demoRepos "foo" = some r) :=
  ⟨(find_repo_tiers demoRepos "/a/foo").1
      ⟨fooA, by simp [demoRepos], by decide⟩,
    (find_repo_tiers demoRepos "foo").2.1 (by decide)
      ⟨fooA, by simp [demoRepos], by decide⟩⟩

/-! ## C1: output_cd handoff -/

/-- C1 counterexample: with the handoff variable set to the empty
string, the write is skipped even when the empty value resolves inside
the temp directory (the working directory of the process); and a write
failure also leaves no file although the target resolved inside the
temp directory.  In both cases the claim asserts the file is written. -/
theorem output_cd_C1_counterexample :
    (output_cd ⟨some "", fun _ => ["tmp", "x"], ["tmp"], true⟩
      "/home/me").written = none ∧
    segPre ["tmp"] ["tmp", "x"] = true ∧
    (output_cd ⟨some "/tmp/f", fun _ => ["tmp", "f"], ["tmp"], false⟩
      "/home/me").written = none ∧
    segPre ["tmp"] ["tmp", "f"] = true ∧
    (output_cd ⟨some "", fun _ => ["tmp", "x"], ["tmp"], true⟩
      "/home/me").echoed = "Switching to /home/me" :=
  ⟨rfl, by decide, rfl, by decide, rfl⟩

/-- C1 (amended): an unset variable produces only the echo; a value
resolving outside the temp directory produces no write but still the
echo; a non-empty value resolving inside the temp directory, when the
write succeeds, writes the target path as the entire file contents and
still echoes; the echo happens in every case. -/
theorem output_cd_spec (env : ShellEnv) (p : String) :
    (env.cdFileVar = none → (output_cd env p).written = none) ∧
    (∀ s, env.cdFileVar = some s →
      segPre env.tempDir (env.resolve s) = false →
      (output_cd env p).written = none) ∧
    (∀ s, env.cdFileVar = some s → s ≠ "" → env.writeOk = true →
      segPre env.tempDir (env.resolve s) = true →
      (output_cd env p).written = some (env.resolve s, p)) ∧
    (output_cd env p).echoed = "Switching to " ++ p := by
  refine ⟨?_, ?_, ?_, rfl⟩
  · intro h
    simp [output_cd, h]
  · intro s hs hout
    by_cases he : s = ""
    · simp [output_cd, hs, he]
    · simp [output_cd, hs, he, hout]
  · intro s hs hne hw hin
    simp [output_cd, hs, hne, hw, hin]

/-- C1 witness: a well-formed handoff environment gets the file written
with the target path as contents, and the echo line produced. -/
theorem output_cd_spec_witness :
    (output_cd ⟨some "/tmp/wt_cd_7", fun _ => ["tmp", "wt_cd_7"], ["tmp"],
        true⟩ "/home/proj").written = some (["tmp", "wt_cd_7"], "/home/proj") ∧
    (output_cd ⟨some "/tmp/wt_cd_7", fun _ => ["tmp", "wt_cd_7"], ["tmp"],
        true⟩ "/home/proj").echoed = "Switching to /home/proj" :=
  ⟨(output_cd_spec _ "/home/proj").2.2.1 "/tmp/wt_cd_7" rfl (by decide) rfl
      (by decide),
    (output_cd_spec _ "/home/proj").2.2.2⟩

/-! ## C7: discovery output ordering -/

/-- C7: discover_repos returns a permutation of the accumulated
discovery list that is sorted by lowercased name, and the sort is
stable: for every key, the records with that lowercased name appear in
their original discovery order. -/
theorem discover_repos_ordering (env : GitEnv) (roots : List ScanRoot) :
    (discover_repos env roots).Perm (discover_raw env roots) ∧
    List.Pairwise (fun a b => repoLe a b = true) (discover_repos env roots) ∧
    ∀ k, (discover_repos env roots).filter (fun r => decide (nameKey r = k)) =
      (discover_raw env roots).filter (fun r => decide (nameKey r = k)) :=
  ⟨ssort_perm repoLe (discover_raw env roots),
    sorted_ssort (discover_raw env roots),
    fun k => filter_ssort k (discover_raw env roots)⟩

/-! ## C8: hidden-segment post-filter -/

/-- C8: every record in the discovery output came from a found .git
directory whose repo path, relative to its scan root, has no segment
starting with a dot (hidden matches are discarded); and a scan root
lying under a hidden directory does not by itself exclude its repos: a
single found repo with a clean relative path is returned whatever the
base segments are. -/
theorem discover_repos_hidden (env : GitEnv) (roots : List ScanRoot) :
    (∀ r ∈ discover_repos env roots, ∃ root ∈ roots,
      root.present = true ∧ ∃ gs, root.found = some gs ∧ ∃ g ∈ gs,
        (g.dropLast.drop root.base.length).any startsWithDot = false ∧
        extract_repo_info env g.dropLast = Except.ok r) ∧
    (∀ base g rem,
      (g.dropLast.drop base.length).any startsWithDot = false →
      env.remote g.dropLast = Except.ok rem →
      discover_repos env [⟨base, true, some [g]⟩] =
        [{ name := (g.dropLast.getLast?).getD "", path := pathStr g.dropLast,
           remote := rem, remote_type := categorize_remote rem }]) := by
  constructor
  · intro r hr
    exact mem_discover_repos env roots r hr
  · intro base g rem hno hrem
    simp [discover_repos, discover_raw, processRoot, processGitDir,
      extract_repo_info, hno, hrem, ssort, sinsert]

/-- C8 witness: a repo directly under a scan root that itself lives in
a hidden directory is still discovered, because the hidden-segment test
applies to the path relative to the root only. -/
theorem discover_repos_hidden_witness :
    discover_repos ⟨fun _ => .ok none⟩
        [⟨[".cache", "u"], true, some [[".cache", "u", "repo", ".git"]]⟩] =
      [{ name := "repo", path := "/.cache/u/repo", remote := none,
         remote_type := "local" }] := by
  have h := (discover_repos_hidden ⟨fun _ => .ok none⟩
      [⟨[".cache", "u"], true, some [[".cache", "u", "repo", ".git"]]⟩]).2
    [".cache", "u"] [".cache", "u", "repo", ".git"] none (by decide) rfl
  exact h

/-! ## C2: cache validity and fallback in get_repos -/

/-- C2 counterexample: a fresh, readable, well-parsed cache file whose
single entry is an empty JSON object makes get_repos raise (TypeError
from RepoInfo(**r)) instead of returning entries or degrading to a
rescan. -/
theorem get_repos_C2_counterexample :
    is_valid 1000 ⟨.file 0 (.entries [[]]), 0⟩ = true ∧
    get_repos 1000 [] ⟨.file 0 (.entries [[]]), 0⟩ false = .error () :=
  ⟨rfl, rfl⟩

/-- C2 (amended): with forceRefresh false, get_repos returns the decoded
cached entries with fromCache true exactly when the file exists, its age
is strictly below the TTL, and its contents parse and convert to
records; a missing file, a stat error, an age at or beyond the TTL, an
unreadable file, corrupt JSON, and a null parse all behave as the same
cache miss, rescanning and persisting without raising.  A fresh file
that parses but whose entries fail record conversion raises instead. -/
theorem get_repos_spec (ttl : Int) (scan : List RepoInfo) (st : CState) :
    (∀ m es rs, st.fileSt = .file m (.entries es) → st.now - m < ttl →
      es.mapM repoInfoOfJson = .ok rs →
      get_repos ttl scan st false = .ok ((rs, true), st)) ∧
    (st.fileSt = .absent →
      get_repos ttl scan st false =
        .ok ((scan, false), jcache_set st scan)) ∧
    (st.fileSt = .statErr →
      get_repos ttl scan st false =
        .ok ((scan, false), jcache_set st scan)) ∧
    (∀ m c, st.fileSt = .file m c → ttl ≤ st.now - m →
      get_repos ttl scan st false =
        .ok ((scan, false), jcache_set st scan)) ∧
    (∀ m, st.fileSt = .file m .unreadable →
      get_repos ttl scan st false =
        .ok ((scan, false), jcache_set st scan)) ∧
    (∀ m, st.fileSt = .file m .badJson →
      get_repos ttl scan st false =
        .ok ((scan, false), jcache_set st scan)) ∧
    (∀ m, st.fileSt = .file m .jsonNull →
      get_repos ttl scan st false =
        .ok ((scan, false), jcache_set st scan)) := by
  refine ⟨?_, ?_, ?_, ?_, ?_, ?_, ?_⟩
  · intro m es rs hf hlt hm
    apply get_repos_hit ttl scan st es rs ?_ hm
    unfold jcache_get is_valid
    rw [hf]
    simp [hlt]
  · intro hf
    apply get_repos_miss
    apply jcache_get_none_of_invalid
    unfold is_valid
    rw [hf]
  · intro hf
    apply get_repos_miss
    apply jcache_get_none_of_invalid
    unfold is_valid
    rw [hf]
  · intro m c hf hle
    apply get_repos_miss
    apply jcache_get_none_of_invalid
    unfold is_valid
    rw [hf]
    show decide (st.now - m < ttl) = false
    simp [not_lt.2 hle]
  · intro m hf
    apply get_repos_miss
    unfold jcache_get
    rw [hf]
    simp
  · intro m hf
    apply get_repos_miss
    unfold jcache_get
    rw [hf]
    simp
  · intro m hf
    apply get_repos_miss
    unfold jcache_get
    rw [hf]
    simp

/-- C2 witness: with TTL one second (1000 in the millisecond unit of
the model), a cache written at time 0 is served at age 500 (0.5s) with
fromCache true, and at age 1100 (1.1s) it is expired, so the scan runs
and is persisted with fromCache false. -/
theorem get_repos_spec_witness :
    get_repos 1000 [] ⟨.file 0 (.entries []), 500⟩ false =
      .ok (([], true), ⟨.file 0 (.entries []), 500⟩) ∧
    get_repos 1000 [] ⟨.file 0 (.entries []), 1100⟩ false =
      .ok (([], false), ⟨.file 1100 (.entries []), 1100⟩) :=
  ⟨(get_repos_spec 1000 [] _).1 0 [] [] rfl (by decide) rfl,
    (get_repos_spec 1000 [] _).2.2.2.1 0 (.entries []) rfl (by decide)⟩

/-! ## C9: add/remove idempotence -/

theorem get_repos_cases (ttl : Int) (scan : List RepoInfo) (st : CState)
    (repos : List RepoInfo) (b : Bool) (st1 : CState)
    (h : get_repos ttl scan st false = .ok ((repos, b), st1)) :
    (st1 = st ∧ b = true) ∨
      (st1 = jcache_set st scan ∧ b = false ∧ repos = scan) := by
  unfold get_repos at h
  rcases hjc : jcache_get ttl st with _ | es
  · rw [hjc] at h
    injection h with h2
    rw [Prod.mk.injEq, Prod.mk.injEq] at h2
    obtain ⟨⟨hrep, hb⟩, hst⟩ := h2
    exact Or.inr ⟨hst.symm, hb.symm, hrep.symm⟩
  · rw [hjc] at h
    have h' : Except.map (fun rs => ((rs, true), st))
        (es.mapM repoInfoOfJson) = .ok ((repos, b), st1) := h
    rcases hm : es.mapM repoInfoOfJson with e | rs
    · rw [hm] at h'
      exact absurd h' (by simp [Except.map])
    · rw [hm] at h'
      injection h' with h2
      rw [Prod.mk.injEq, Prod.mk.injEq] at h2
      obtain ⟨⟨_, hb⟩, hst⟩ := h2
      exact Or.inl ⟨hst.symm, hb.symm⟩

/-- C9: adding a path twice yields the same persisted state as adding it
once - the once-added state stably re-sorted, holding exactly one record
with that path and sorted by lowercased name - and removing an absent
path succeeds and persists exactly the records the internal get
returned. -/
theorem add_remove_idempotent (ttl : Int) (scan : List RepoInfo)
    (st : CState) (info : RepoInfo) (p : String) (repos : List RepoInfo)
    (b : Bool) (st1 : CState) (httl : 0 < ttl)
    (hget : get_repos ttl scan st false = .ok ((repos, b), st1)) :
    (repos.countP (fun r => decide (r.path = info.path)) = 0 →
      add_repo ttl scan st info =
        .ok (jcache_set st1 (ssort repoLe (repos ++ [info]))) ∧
      add_repo ttl scan (jcache_set st1 (ssort repoLe (repos ++ [info])))
          info =
        .ok (jcache_set st1 (ssort repoLe (repos ++ [info]))) ∧
      (ssort repoLe (repos ++ [info])).countP
          (fun r => decide (r.path = info.path)) = 1 ∧
      List.Pairwise (fun x y => repoLe x y = true)
        (ssort repoLe (repos ++ [info]))) ∧
    (repos.countP (fun r => decide (r.path = p)) = 0 →
      remove_repo ttl scan st p = .ok (jcache_set st1 repos)) := by
  constructor
  · intro hcnt
    have hany : repos.any (fun r => r.path = info.path) = false := by
      rw [List.any_eq_false]
      intro x hx
      exact List.countP_eq_zero.1 hcnt x hx
    refine ⟨?_, ?_, ?_, sorted_ssort _⟩
    · unfold add_repo
      rw [hget]
      show (if (repos.any fun r => r.path = info.path) = true
          then Except.ok st1
          else Except.ok (jcache_set st1 (ssort repoLe (repos ++ [info])))) =
        Except.ok (jcache_set st1 (ssort repoLe (repos ++ [info])))
      rw [hany]
      rfl
    · have hmem : info ∈ ssort repoLe (repos ++ [info]) :=
        (ssort_perm repoLe _).mem_iff.2
          (List.mem_append_right repos (List.mem_singleton.2 rfl))
      have hany2 : (ssort repoLe (repos ++ [info])).any
          (fun r => r.path = info.path) = true :=
        List.any_eq_true.2 ⟨info, hmem, by simp⟩
      unfold add_repo
      rw [get_repos_fresh ttl scan (ssort repoLe (repos ++ [info])) st1 httl]
      show (if ((ssort repoLe (repos ++ [info])).any
            fun r => r.path = info.path) = true
          then Except.ok (jcache_set st1 (ssort repoLe (repos ++ [info])))
          else _) =
        Except.ok (jcache_set st1 (ssort repoLe (repos ++ [info])))
      rw [hany2]
      rfl
    · rw [List.Perm.countP_eq _ (ssort_perm repoLe (repos ++ [info])),
        List.countP_append, hcnt]
      simp [List.countP_cons]
  · intro hcnt
    have hfilt : repos.filter (fun r => r.path ≠ p) = repos :=
      List.filter_eq_self.2 (fun a ha => by
        simpa using List.countP_eq_zero.1 hcnt a ha)
    unfold remove_repo
    rw [hget]
    show Except.ok (jcache_set st1 (repos.filter fun r => r.path ≠ p)) =
      Except.ok (jcache_set st1 repos)
    rw [hfilt]

/-- C9 witness: on a valid empty cache, adding a record persists the
one-element sorted list, and removing an absent path persists the same
empty record set without error. -/
theorem add_remove_idempotent_witness :
    add_repo 1000 [] ⟨.file 0 (.entries []), 500⟩ pRec =
      .ok (jcache_set ⟨.file 0 (.entries []), 500⟩
        (ssort repoLe ([] ++ [pRec]))) ∧
    remove_repo 1000 [] ⟨.file 0 (.entries []), 500⟩ "/h/p" =
      .ok (jcache_set ⟨.file 0 (.entries []), 500⟩ []) := by
  have h := add_remove_idempotent 1000 [] ⟨.file 0 (.entries []), 500⟩ pRec
    "/h/p" [] true ⟨.file 0 (.entries []), 500⟩ (by decide) rfl
  exact ⟨(h.1 rfl).1, h.2 rfl⟩

/-! ## C10: add_repo frame effect -/

/-- C10 counterexample: an expired cache file that does contain the
added path is rewritten by add_repo anyway - the internal get rescans
and persists, moving the modification time from 0 to the current time
2000 - contradicting the claim that the file contents and mtime are
left unchanged whenever the path is already present. -/
theorem add_repo_C10_counterexample :
    ([jsonOfRepoInfo pRec].mapM repoInfoOfJson) = .ok [pRec] ∧
    add_repo 1000 [pRec] ⟨.file 0 (.entries [jsonOfRepoInfo pRec]), 2000⟩
        pRec =
      .ok ⟨.file 2000 (.entries [jsonOfRepoInfo pRec]), 2000⟩ ∧
    CacheFile.file 2000 (.entries [jsonOfRepoInfo pRec]) ≠
      CacheFile.file 0 (.entries [jsonOfRepoInfo pRec]) := by
  refine ⟨rfl, rfl, ?_⟩
  intro h
  injection h with h1 h2
  exact absurd h1 (by decide)

/-- C10 (amended): when add_repo's internal get is served from the valid
cache and the decoded records already contain the path, add_repo returns
with the state - hence the cache file and its modification time -
unchanged; remove_repo by contrast always persists, rewriting the file
at the current time even when nothing was removed. -/
theorem add_repo_frame (ttl : Int) (scan : List RepoInfo) (st : CState)
    (info : RepoInfo) (es : List JObj) (rs : List RepoInfo)
    (hv : jcache_get ttl st = some es)
    (hm : es.mapM repoInfoOfJson = .ok rs)
    (hmem : rs.any (fun r => r.path = info.path) = true) :
    add_repo ttl scan st info = .ok st ∧
    ∀ q st', remove_repo ttl scan st q = .ok st' →
      st' = jcache_set st (rs.filter (fun r => r.path ≠ q)) := by
  have hg := get_repos_hit ttl scan st es rs hv hm
  constructor
  · unfold add_repo
    rw [hg]
    show (if (rs.any fun r => r.path = info.path) = true then Except.ok st
        else Except.ok (jcache_set st (ssort repoLe (rs ++ [info])))) =
      Except.ok st
    rw [hmem]
    rfl
  · intro q st' hrm
    unfold remove_repo at hrm
    rw [hg] at hrm
    injection hrm with h
    exact h.symm

/-- C10 witness: on a valid cache already holding the path, add_repo
leaves the state untouched. -/
theorem add_repo_frame_witness :
    add_repo 1000 [] ⟨.file 0 (.entries [jsonOfRepoInfo pRec]), 500⟩ pRec =
      .ok ⟨.file 0 (.entries [jsonOfRepoInfo pRec]), 500⟩ :=
  (add_repo_frame 1000 [] ⟨.file 0 (.entries [jsonOfRepoInfo pRec]), 500⟩
    pRec [jsonOfRepoInfo pRec] [pRec] rfl rfl (by decide)).1
